import Mathlib

/-!
Verification of the core text-matching engine of the plagiarism checker
(C++ source: Document preprocessing, RabinKarpChecker, JaccardChecker, and
the score combination in main).  Texts are modelled as `List Char`, raw
byte values as `Char.toNat`, and C++ `double` score arithmetic as exact
rationals `ℚ` (every operation performed on scores in the source is an
arithmetic combination of small integer counts, weights 0.4/0.6/0.8 and
divisions, which the rational semantics captures exactly).
-/

namespace Plag

/-- C-locale `isspace` on a byte: space, tab, newline, vertical tab,
form feed, carriage return. -/
def isSpaceChar (c : Char) : Bool :=
  c == ' ' || c == '\t' || c == '\n' || c == '\x0b' || c == '\x0c' || c == '\r'

/-- Non-newline whitespace: the characters that `Document::preprocess`
collapses into a single space. -/
def isWsNotNl (c : Char) : Bool :=
  c == ' ' || c == '\t' || c == '\x0b' || c == '\x0c' || c == '\r'

/-- C-locale `tolower`: ASCII uppercase letters are shifted to lowercase,
everything else is unchanged. -/
def toLowerChar (c : Char) : Char :=
  if 'A' ≤ c ∧ c ≤ 'Z' then Char.ofNat (c.toNat + 32) else c

/-- `Document::toLower` (per-character `tolower` over the whole string). -/
def listToLower (s : List Char) : List Char := s.map toLowerChar

/-- The loop of `Document::preprocess`: `i` is the current raw index and
the boolean is the `lastSpace` flag.  Newlines are emitted verbatim,
runs of other whitespace collapse to one space carrying the raw index of
the first character of the run, everything else is lowercased and carries
its own raw index.  Returns (canonical text, offset map). -/
def preprocessAux : List Char → Nat → Bool → List Char × List Nat
  | [], _, _ => ([], [])
  | c :: rest, i, lastSpace =>
    if c == '\n' then
      ('\n' :: (preprocessAux rest (i + 1) false).1, i :: (preprocessAux rest (i + 1) false).2)
    else if isSpaceChar c then
      if lastSpace then
        preprocessAux rest (i + 1) true
      else
        (' ' :: (preprocessAux rest (i + 1) true).1, i :: (preprocessAux rest (i + 1) true).2)
    else
      (toLowerChar c :: (preprocessAux rest (i + 1) false).1,
        i :: (preprocessAux rest (i + 1) false).2)

/-- `Document::preprocess`. -/
def preprocess (s : List Char) : List Char × List Nat :=
  preprocessAux s 0 false

/-- `Document::calculateLineStarts`: offset 0 plus the offset just after
every newline of the canonical text. -/
def calculateLineStarts (text : List Char) : List Nat :=
  0 :: ((List.range text.length).filter (fun i => text.getD i ' ' == '\n')).map (· + 1)

/-- The `Document` class: raw text, canonical text, offset map
(`indexMap`), line starts. -/
structure Document where
  raw : List Char
  text : List Char
  indexMap : List Nat
  lineStarts : List Nat

/-- The `Document` constructor: preprocess the raw text and compute the
line starts. -/
def mkDocument (raw : List Char) : Document :=
  let pr := preprocess raw
  { raw := raw, text := pr.1, indexMap := pr.2, lineStarts := calculateLineStarts pr.1 }

/-- Loop of `Document::getLineNumber`: `k` lines have been passed; return
`k+1` as soon as `pos` is below the next line start, and the total number
of lines when the scan runs out. -/
def lineLookupAux (pos : Nat) : Nat → List Nat → Nat
  | k, _ :: next :: rest =>
    if pos < next then k + 1 else lineLookupAux pos (k + 1) (next :: rest)
  | k, l => k + l.length

/-- `Document::getLineNumber`. -/
def Document.getLineNumber (d : Document) (pos : Nat) : Nat :=
  lineLookupAux pos 0 d.lineStarts

/-- `Document::rawSlice`: resolve a canonical range `[startP, endP)` to a
slice of the raw text through the offset map.  The `max`/`min` forms
mirror the source's clamping (`endProcessed = startProcessed` when
inverted, `rawEndIdx` clamped up to `startProcessed`, `rawEnd` clamped to
the raw length); the C++ `-1` that can occur in `rawEndIdx` is always
clamped back up to `startProcessed`, which the `Nat` truncation here
reproduces exactly. -/
def Document.rawSlice (d : Document) (startP endP : Nat) : List Char :=
  let endP' := max endP startP
  if d.indexMap.length ≤ startP then []
  else
    let rawStart := d.indexMap.getD startP 0
    let rawEndIdx := max (min endP' d.indexMap.length - 1) startP
    let rawEnd := min (d.indexMap.getD rawEndIdx 0 + 1) d.raw.length
    if d.raw.length ≤ rawStart ∨ rawEnd ≤ rawStart then []
    else (d.raw.drop rawStart).take (rawEnd - rawStart)

/-- `MatchSpan`: a pair of canonical ranges, their raw-text slices and
1-based line numbers. -/
structure MatchSpan where
  startA : Nat
  endA : Nat
  startB : Nat
  endB : Nat
  textA : List Char
  textB : List Char
  lineA : Nat
  lineB : Nat
deriving DecidableEq

/-- The canonical ranges of a span (used to state properties about the
emitted spans without their decorative fields). -/
def spanKey (sp : MatchSpan) : Nat × Nat × Nat × Nat :=
  (sp.startA, sp.endA, sp.startB, sp.endB)

/-- Rolling-hash modulus of `RabinKarpChecker`. -/
def hashMod : Nat := 1000000007

/-- Rolling-hash base of `RabinKarpChecker`. -/
def hashBase : Nat := 257

/-- Polynomial hash reduced at each step, as computed by the
initialisation loops of `findOccurrences`. -/
def polyHash (l : List Char) : Nat :=
  l.foldl (fun h c => (h * hashBase + c.toNat) % hashMod) 0

/-- Unreduced polynomial value (proof device relating the rolling update
to the per-window hash). -/
def polyVal (l : List Char) : Nat :=
  l.foldl (fun h c => h * hashBase + c.toNat) 0

/-- One rolling-hash update of `findOccurrences`:
`t = (base * (t - text[i]*h % mod + mod) % mod + text[i+m]) % mod`. -/
def rollStep (t cOld cNew h : Nat) : Nat :=
  (hashBase * (t + hashMod - cOld * h % hashMod) % hashMod + cNew) % hashMod

/-- Main loop of `RabinKarpChecker::findOccurrences`: `i` is the current
start position, `t` the rolling hash of `text[i .. i+m)`, `p` the pattern
hash, `h = base^(m-1) % mod`; on a hash match the window is verified
character by character before `i` is recorded. -/
def findOccAux (text pat : List Char) (p h : Nat) : Nat → Nat → Nat → List Nat
  | 0, _, _ => []
  | cnt + 1, i, t =>
    let rest := findOccAux text pat p h cnt (i + 1)
      (rollStep t (text.getD i ' ').toNat (text.getD (i + pat.length) ' ').toNat h)
    if p = t ∧ (text.drop i).take pat.length = pat then i :: rest else rest

/-- `RabinKarpChecker::findOccurrences`. -/
def findOccurrences (text pat : List Char) : List Nat :=
  if pat.length = 0 ∨ text.length < pat.length then []
  else
    findOccAux text pat (polyHash pat) (hashBase ^ (pat.length - 1) % hashMod)
      (text.length - pat.length + 1) 0 (polyHash (text.take pat.length))

/-- Backward extension of a seed match (`while (startA > 0 && startB > 0
&& a.text[startA-1] == b.text[startB-1])`). -/
def extendBack (ta tb : List Char) : Nat → Nat → Nat × Nat
  | 0, sB => (0, sB)
  | sA + 1, 0 => (sA + 1, 0)
  | sA + 1, sB + 1 =>
    if ta.getD sA ' ' = tb.getD sB ' ' then extendBack ta tb sA sB
    else (sA + 1, sB + 1)

/-- Forward-extension loop with explicit fuel (the loop can run at most
`|a| - endA` times, since `endA` grows by one while `endA < |a|`). -/
def extendFwdAux (ta tb : List Char) : Nat → Nat → Nat → Nat × Nat
  | 0, eA, eB => (eA, eB)
  | fuel + 1, eA, eB =>
    if eA < ta.length ∧ eB < tb.length ∧ ta.getD eA ' ' = tb.getD eB ' ' then
      extendFwdAux ta tb fuel (eA + 1) (eB + 1)
    else (eA, eB)

/-- Forward extension of a seed match (`while (endA < |a| && endB < |b|
&& a.text[endA] == b.text[endB])`). -/
def extendFwd (ta tb : List Char) (eA eB : Nat) : Nat × Nat :=
  extendFwdAux ta tb (ta.length - eA) eA eB

/-- Build a `MatchSpan` from canonical ranges, resolving raw slices and
line numbers (the brace initialisers in `RabinKarpChecker::score`). -/
def mkSpan (a b : Document) (sA eA sB eB : Nat) : MatchSpan :=
  { startA := sA, endA := eA, startB := sB, endB := eB,
    textA := a.rawSlice sA eA, textB := b.rawSlice sB eB,
    lineA := a.getLineNumber sA, lineB := b.getLineNumber sB }

/-- The double-overlap test of `merge_or_add` (`overlapB && overlapA`). -/
def overlapsBoth (sp : MatchSpan) (sA eA sB eB : Nat) : Bool :=
  (!(decide (eB ≤ sp.startB) || decide (sB ≥ sp.endB)))
    && (!(decide (eA ≤ sp.startA) || decide (sA ≥ sp.endA)))

/-- Widening of an existing span by `merge_or_add`: union of the ranges,
with slices and line numbers recomputed. -/
def widenSpan (a b : Document) (sp : MatchSpan) (sA eA sB eB : Nat) : MatchSpan :=
  let s1 := min sp.startA sA
  let e1 := max sp.endA eA
  let s2 := min sp.startB sB
  let e2 := max sp.endB eB
  { startA := s1, endA := e1, startB := s2, endB := e2,
    textA := a.rawSlice s1 e1, textB := b.rawSlice s2 e2,
    lineA := a.getLineNumber s1, lineB := b.getLineNumber s2 }

/-- `merge_or_add`: widen the first existing span that overlaps the new
one on both the A-range and the B-range, otherwise append a new span. -/
def mergeOrAdd (a b : Document) : List MatchSpan → Nat → Nat → Nat → Nat → List MatchSpan
  | [], sA, eA, sB, eB => [mkSpan a b sA eA sB eB]
  | sp :: rest, sA, eA, sB, eB =>
    if overlapsBoth sp sA eA sB eB then widenSpan a b sp sA eA sB eB :: rest
    else sp :: mergeOrAdd a b rest sA eA sB eB

/-- Window start positions of the stride-4 scan
(`for (int i = 0; i + window <= |a|; i += 4)` with `window = 8`). -/
def windowStarts (n : Nat) : List Nat :=
  if n < 8 then [] else (List.range ((n - 8) / 4 + 1)).map (· * 4)

/-- One iteration of the window scan of `RabinKarpChecker::score`: the
state is (spans, total, matched).  `total` is incremented for every
window; on a non-empty occurrence list `matched` is incremented and every
occurrence is extended and merged into the span list. -/
def rkStep (a b : Document) (st : List MatchSpan × Nat × Nat) (i : Nat) :
    List MatchSpan × Nat × Nat :=
  let occ := findOccurrences b.text ((a.text.drop i).take 8)
  if occ.isEmpty then (st.1, st.2.1 + 1, st.2.2)
  else
    (occ.foldl (fun sps sB0 =>
      let sAB := extendBack a.text b.text i sB0
      let eAB := extendFwd a.text b.text (i + 8) (sB0 + 8)
      mergeOrAdd a b sps sAB.1 eAB.1 sAB.2 eAB.2) st.1,
     st.2.1 + 1, st.2.2 + 1)

/-- `RabinKarpChecker::score` together with the span list it accumulates
(the contents of `matches()` after the call). -/
def rkScore (a b : Document) : ℚ × List MatchSpan :=
  if a.text = b.text then
    (100, [mkSpan a b 0 a.text.length 0 b.text.length])
  else if a.text.length < 8 ∨ b.text.length < 8 then
    let minLen := min a.text.length b.text.length
    let matchCount :=
      ((List.range minLen).filter (fun i => a.text.getD i ' ' == b.text.getD i ' ')).length
    if 0 < minLen then
      (((matchCount : ℚ) * 100) / (minLen : ℚ), [mkSpan a b 0 minLen 0 minLen])
    else (0, [])
  else
    let st := (windowStarts a.text.length).foldl (rkStep a b) ([], 0, 0)
    if st.2.1 = 0 then (0, st.1)
    else (((st.2.2 : ℚ) * 100) / (st.2.1 : ℚ), st.1)

/-- `JaccardChecker::makeShingles`: all contiguous length-`k` substrings. -/
def makeShingles (s : List Char) (k : Nat) : List (List Char) :=
  if s.length < k then []
  else (List.range (s.length - k + 1)).map (fun i => (s.drop i).take k)

/-- The shingle set a document contributes to `JaccardChecker::score`
(3-character shingles of the lowercased canonical text, collected into an
unordered set). -/
def shingleSet (d : Document) : Finset (List Char) :=
  (makeShingles (listToLower d.text) 3).toFinset

/-- `JaccardChecker::score`. -/
def jcScore (a b : Document) : ℚ :=
  if a.text = b.text then 100
  else
    let sA := shingleSet a
    let sB := shingleSet b
    if sA = ∅ ∧ sB = ∅ then 100
    else if sA = ∅ ∨ sB = ∅ then 0
    else
      let inter : ℚ := ((sA ∩ sB).card : ℚ)
      let uni : ℚ := (sA.card : ℚ) + (sB.card : ℚ) - inter
      let similarity := inter * 100 / uni
      if 0 < similarity ∧ similarity < 20 then 20 + similarity * 0.8 else similarity

/-- The raw Jaccard similarity over 3-character shingles as the spec
words it: `|A ∩ B| / |A ∪ B| * 100`. -/
def rawJaccard (a b : Document) : ℚ :=
  (((shingleSet a ∩ shingleSet b).card : ℚ) * 100)
    / (((shingleSet a ∪ shingleSet b).card : ℚ))

/-- The score combination in `main`: 100 for identical canonical texts,
0 when both sub-scores are 0, otherwise `0.4 * exact + 0.6 * shingle`. -/
def combine (textsIdentical : Bool) (exactScore shingleScore : ℚ) : ℚ :=
  if textsIdentical then 100
  else if exactScore = 0 ∧ shingleScore = 0 then 0
  else 0.4 * exactScore + 0.6 * shingleScore

/-- The comparison result assembled by `main`. -/
structure ComparisonResult where
  exactScore : ℚ
  shingleScore : ℚ
  combinedScore : ℚ
  spans : List MatchSpan

/-- The whole pipeline of `main` on two raw texts. -/
def compareDocs (rawA rawB : List Char) : ComparisonResult :=
  let a := mkDocument rawA
  let b := mkDocument rawB
  let rk := rkScore a b
  let jc := jcScore a b
  { exactScore := rk.1, shingleScore := jc,
    combinedScore := combine (decide (a.text = b.text)) rk.1 jc,
    spans := rk.2 }

/-- Literal occurrence of `pat` in `text` at position `j` (used to state
claims about the matcher: the window fits and matches character by
character). -/
def substringAt (pat text : List Char) (j : Nat) : Bool :=
  decide (j + pat.length ≤ text.length) && ((text.drop j).take pat.length == pat)

/-- `pat` occurs somewhere in `text` as a literal substring. -/
def occursBool (pat text : List Char) : Bool :=
  (List.range (text.length + 1)).any (substringAt pat text)

/-- Specification-side normalizer, written from the spec text: newlines
are emitted verbatim; a maximal run of non-newline whitespace is replaced
by one space whose offset entry is the raw index of the first character
of the run; every other character is lowercased and carries its own raw
index. -/
def normSpec (l : List Char) (i : Nat) : List Char × List Nat :=
  match l with
  | [] => ([], [])
  | c :: rest =>
    if c == '\n' then
      ('\n' :: (normSpec rest (i + 1)).1, i :: (normSpec rest (i + 1)).2)
    else if isWsNotNl c then
      (' ' :: (normSpec (rest.dropWhile isWsNotNl)
          (i + 1 + (rest.takeWhile isWsNotNl).length)).1,
        i :: (normSpec (rest.dropWhile isWsNotNl)
          (i + 1 + (rest.takeWhile isWsNotNl).length)).2)
    else
      (toLowerChar c :: (normSpec rest (i + 1)).1, i :: (normSpec rest (i + 1)).2)
termination_by l.length
decreasing_by
all_goals
  have h := (List.dropWhile_sublist (l := rest) isWsNotNl).length_le
  simp only [List.length_cons]
  omega

/-! ### Theorems -/

/-- C1: the score combiner is a pure function of
(exactScore, shingleScore, textsIdentical): identical texts give 100
regardless of the sub-scores; two zero sub-scores give 0; otherwise the
result is exactly `0.4 * exactScore + 0.6 * shingleScore`, so 50/50
combine to 50. -/
theorem c1_combine (e s : ℚ) :
    combine true e s = 100 ∧
    combine false 0 0 = 0 ∧
    (¬(e = 0 ∧ s = 0) → combine false e s = 0.4 * e + 0.6 * s) ∧
    combine false 50 50 = 50 := by
  refine ⟨rfl, by simp [combine], fun h => by simp [combine, h], by norm_num [combine]⟩

/-- Witness for C1 at exactScore = shingleScore = 50. -/
theorem c1_combine_witness :
    ¬((50 : ℚ) = 0 ∧ (50 : ℚ) = 0) ∧ combine false 50 50 = 0.4 * 50 + 0.6 * 50 :=
  ⟨by norm_num, (c1_combine 50 50).2.2.1 (by norm_num)⟩

/-- C2 counterexample: on canonical texts `abcdabcdabcd` and
`cdabcdabcdab` the matcher's union-merge policy produces the single span
`(0, 12, 0, 12)` although the two texts differ already at position 0, so
an emitted span is not character-for-character equal. -/
theorem c2_cex :
    ((rkScore (mkDocument ['a','b','c','d','a','b','c','d','a','b','c','d'])
        (mkDocument ['c','d','a','b','c','d','a','b','c','d','a','b'])).2.map spanKey)
      = [(0, 12, 0, 12)] ∧
    (mkDocument ['a','b','c','d','a','b','c','d','a','b','c','d']).text.getD 0 ' '
      ≠ (mkDocument ['c','d','a','b','c','d','a','b','c','d','a','b']).text.getD 0 ' ' := by
  decide

/-- C5: comparing a non-empty text with itself yields combined score 100
and a single span covering the full canonical length on both sides. -/
theorem c5_identity (T : List Char) (h : T ≠ []) :
    (compareDocs T T).combinedScore = 100 ∧
    (compareDocs T T).spans.map spanKey =
      [(0, (mkDocument T).text.length, 0, (mkDocument T).text.length)] := by
  constructor
  · show combine (decide ((mkDocument T).text = (mkDocument T).text)) _ _ = 100
    rw [decide_eq_true rfl]
    rfl
  · show ((rkScore (mkDocument T) (mkDocument T)).2.map spanKey) = _
    rw [rkScore, if_pos rfl]
    simp [mkSpan, spanKey]

/-- Witness for C5 at the one-character text `a`. -/
theorem c5_identity_witness :
    (['a'] : List Char) ≠ [] ∧
      ((compareDocs ['a'] ['a']).combinedScore = 100 ∧
        (compareDocs ['a'] ['a']).spans.map spanKey =
          [(0, (mkDocument ['a']).text.length, 0, (mkDocument ['a']).text.length)]) :=
  ⟨by decide, c5_identity ['a'] (by decide)⟩

/-- C7 counterexample: on two empty documents the identical-texts branch
emits the degenerate span `(0, 0, 0, 0)` with `endA - startA = 0`, so a
span with `end > start` on both sides is not guaranteed for the
degenerate-equality branch with both texts empty. -/
theorem c7_cex :
    ((rkScore (mkDocument []) (mkDocument [])).2.map spanKey) = [(0, 0, 0, 0)] := by
  decide

/-- C8 counterexample: the span list is not sorted by `startA` (first
input pair: the emitted `startA` sequence is `[2, 1]`), and two spans can
share an identical `(startA, startB)` pair (second input pair: both spans
start at `(0, 0)`). -/
theorem c8_cex :
    (((rkScore (mkDocument ['x','y','c','d','e','f','g','h','i','j','k','l','m','n','o','p'])
        (mkDocument ['q','c','d','e','f','g','h','i','j','k','l','r','y','c','d','e','f','g','h','i','j','k','l','m','n','o','p'])).2.map
          (fun sp => sp.startA)) = [2, 1] ∧
      ¬ List.Pairwise (· ≤ ·)
        ((rkScore (mkDocument ['x','y','c','d','e','f','g','h','i','j','k','l','m','n','o','p'])
          (mkDocument ['q','c','d','e','f','g','h','i','j','k','l','r','y','c','d','e','f','g','h','i','j','k','l','m','n','o','p'])).2.map
            (fun sp => sp.startA))) ∧
    (((rkScore (mkDocument ['a','b','c','d','e','f','g','h','a','b','c','d','e','f','g','h','q','a','b','c','d'])
        (mkDocument ['a','b','c','d','e','f','g','h','q','a','b','c','d','e','f','g','h','a','b','z'])).2.map
          (fun sp => (sp.startA, sp.startB))) = [(0, 0), (0, 0)] ∧
      ¬ List.Nodup
        ((rkScore (mkDocument ['a','b','c','d','e','f','g','h','a','b','c','d','e','f','g','h','q','a','b','c','d'])
          (mkDocument ['a','b','c','d','e','f','g','h','q','a','b','c','d','e','f','g','h','a','b','z'])).2.map
            (fun sp => (sp.startA, sp.startB)))) := by
  decide

/-- C8 amended: the comparison result exposes exactly the span list the
matcher produced, in emission order, with no further sorting or
deduplication; in the identical-texts branch the list is the single full
span, and in the short-text branch it has at most one element.  (In the
general case neither ascending `startA` order nor uniqueness of
`(startA, startB)` holds, see the counterexample.) -/
theorem c8_amended (rawA rawB : List Char) :
    (compareDocs rawA rawB).spans = (rkScore (mkDocument rawA) (mkDocument rawB)).2 ∧
    ((mkDocument rawA).text = (mkDocument rawB).text →
      (rkScore (mkDocument rawA) (mkDocument rawB)).2.length = 1) ∧
    ((mkDocument rawA).text.length < 8 ∨ (mkDocument rawB).text.length < 8 →
      (rkScore (mkDocument rawA) (mkDocument rawB)).2.length ≤ 1) := by
  refine ⟨rfl, ?_, ?_⟩
  · intro hid
    rw [rkScore, if_pos hid]
    rfl
  · intro hshort
    by_cases hid : (mkDocument rawA).text = (mkDocument rawB).text
    · rw [rkScore, if_pos hid]
      simp
    · rw [rkScore, if_neg hid, if_pos hshort]
      by_cases hmin : 0 < min (mkDocument rawA).text.length (mkDocument rawB).text.length
      · simp only [hmin, if_pos]
        simp
      · simp only [hmin, if_neg]
        simp

/-- Witness for C8 amended: identical one-character documents yield
exactly one span. -/
theorem c8_amended_witness :
    (rkScore (mkDocument ['a']) (mkDocument ['a'])).2.length = 1 :=
  (c8_amended ['a'] ['a']).2.1 rfl

/-- A character accepted by `isWsNotNl` is whitespace and not a newline. -/
theorem isWsNotNl_spec (c : Char) (h : isWsNotNl c = true) :
    (c == '\n') = false ∧ isSpaceChar c = true := by
  simp only [isWsNotNl, Bool.or_eq_true, beq_iff_eq] at h
  rcases h with (((h | h) | h) | h) | h <;> subst h <;> exact ⟨by decide, by decide⟩

/-- A character that is neither a newline nor run-whitespace is not
whitespace at all. -/
theorem isSpaceChar_false (c : Char) (hnl : (c == '\n') = false)
    (hws : isWsNotNl c = false) : isSpaceChar c = false := by
  simp only [isWsNotNl, Bool.or_eq_false_iff] at hws
  simp only [isSpaceChar, Bool.or_eq_false_iff]
  tauto

/-- The canonical text and the offset map produced by the preprocessing
loop always have the same length. -/
theorem preprocessAux_length (s : List Char) : ∀ i fl,
    (preprocessAux s i fl).1.length = (preprocessAux s i fl).2.length := by
  induction s with
  | nil => intro i fl; rfl
  | cons c rest ih =>
    intro i fl
    by_cases hnl : (c == '\n') = true
    · simp [preprocessAux, hnl, ih]
    · by_cases hsp : isSpaceChar c = true
      · cases fl <;> simp [preprocessAux, hnl, hsp, ih]
      · simp [preprocessAux, hnl, hsp, ih]

/-- Every offset-map entry produced from raw position `i` onwards lies in
`[i, i + length)`. -/
theorem preprocessAux_bounds (s : List Char) : ∀ i fl x,
    x ∈ (preprocessAux s i fl).2 → i ≤ x ∧ x < i + s.length := by
  induction s with
  | nil => intro i fl x hx; simp [preprocessAux] at hx
  | cons c rest ih =>
    intro i fl x hx
    by_cases hnl : (c == '\n') = true
    · simp only [preprocessAux, hnl, if_true, List.mem_cons, List.length_cons] at hx ⊢
      rcases hx with rfl | hx
      · omega
      · have := ih (i + 1) false x hx
        omega
    · by_cases hsp : isSpaceChar c = true
      · cases fl
        · simp only [preprocessAux, hnl, hsp, if_true, if_false, Bool.false_eq_true,
            List.mem_cons, List.length_cons] at hx ⊢
          rcases hx with rfl | hx
          · omega
          · have := ih (i + 1) true x hx
            omega
        · simp only [preprocessAux, hnl, hsp, if_true, if_false, List.length_cons] at hx ⊢
          have := ih (i + 1) true x hx
          omega
      · simp only [preprocessAux, hnl, hsp, if_false, Bool.false_eq_true, List.mem_cons,
          List.length_cons] at hx ⊢
        rcases hx with rfl | hx
        · omega
        · have := ih (i + 1) false x hx
          omega

/-- The offset-map entries are strictly increasing. -/
theorem preprocessAux_pairwise (s : List Char) : ∀ i fl,
    List.Pairwise (· < ·) (preprocessAux s i fl).2 := by
  induction s with
  | nil => intro i fl; simp [preprocessAux]
  | cons c rest ih =>
    intro i fl
    by_cases hnl : (c == '\n') = true
    · simp only [preprocessAux, hnl, if_true]
      refine List.pairwise_cons.mpr ⟨?_, ih (i + 1) false⟩
      intro x hx
      have := preprocessAux_bounds rest (i + 1) false x hx
      omega
    · by_cases hsp : isSpaceChar c = true
      · cases fl
        · simp only [preprocessAux, hnl, hsp, if_true, if_false, Bool.false_eq_true]
          refine List.pairwise_cons.mpr ⟨?_, ih (i + 1) true⟩
          intro x hx
          have := preprocessAux_bounds rest (i + 1) true x hx
          omega
        · simp only [preprocessAux, hnl, hsp, if_true, if_false]
          exact ih (i + 1) true
      · simp only [preprocessAux, hnl, hsp, if_false, Bool.false_eq_true]
        refine List.pairwise_cons.mpr ⟨?_, ih (i + 1) false⟩
        intro x hx
        have := preprocessAux_bounds rest (i + 1) false x hx
        omega

/-- With the `lastSpace` flag set, the preprocessing loop skips the
entire leading run of non-newline whitespace. -/
theorem preprocessAux_skip_run (s : List Char) : ∀ i,
    preprocessAux s i true =
      preprocessAux (s.dropWhile isWsNotNl) (i + (s.takeWhile isWsNotNl).length) true := by
  induction s with
  | nil => intro i; simp [List.dropWhile, List.takeWhile]
  | cons c rest ih =>
    intro i
    by_cases hws : isWsNotNl c = true
    · obtain ⟨hnl, hsp⟩ := isWsNotNl_spec c hws
      rw [List.dropWhile_cons, List.takeWhile_cons, if_pos hws, if_pos hws]
      have hstep : preprocessAux (c :: rest) i true = preprocessAux rest (i + 1) true := by
        simp [preprocessAux, hnl, hsp]
      rw [hstep, ih (i + 1)]
      have harith : i + 1 + (rest.takeWhile isWsNotNl).length
          = i + (c :: rest.takeWhile isWsNotNl).length := by
        simp only [List.length_cons]
        omega
      rw [harith]
    · rw [List.dropWhile_cons, List.takeWhile_cons, if_neg (by simp [hws]),
        if_neg (by simp [hws])]
      simp

/-- The `lastSpace` flag is irrelevant when the next character does not
belong to a whitespace run. -/
theorem preprocessAux_flag (c : Char) (rest : List Char) (i : Nat)
    (hws : isWsNotNl c = false) :
    preprocessAux (c :: rest) i true = preprocessAux (c :: rest) i false := by
  by_cases hnl : (c == '\n') = true
  · simp [preprocessAux, hnl]
  · have hsp : isSpaceChar c = false :=
      isSpaceChar_false c (by simp only [Bool.not_eq_true] at hnl; exact hnl) hws
    simp [preprocessAux, hnl, hsp]

/-- The head of `dropWhile p l`, when it exists, falsifies `p`. -/
theorem dropWhile_head_false {α : Type} (p : α → Bool) :
    ∀ (l : List α) c rest, l.dropWhile p = c :: rest → p c = false := by
  intro l
  induction l with
  | nil => intro c rest h; simp [List.dropWhile] at h
  | cons x xs ih =>
    intro c rest h
    rw [List.dropWhile_cons] at h
    by_cases hx : p x = true
    · rw [if_pos hx] at h
      exact ih c rest h
    · rw [if_neg hx] at h
      obtain ⟨rfl, rfl⟩ := List.cons.inj h
      simpa using hx

/-- The `lastSpace` flag is irrelevant after a whitespace run has been
dropped. -/
theorem preprocessAux_flag_dropWhile (l : List Char) (i : Nat) :
    preprocessAux (l.dropWhile isWsNotNl) i true =
      preprocessAux (l.dropWhile isWsNotNl) i false := by
  cases h : l.dropWhile isWsNotNl with
  | nil => rfl
  | cons c rest => exact preprocessAux_flag c rest i (dropWhile_head_false _ l c rest h)

/-- The preprocessing loop refines the specification-side normalizer. -/
theorem preprocessAux_eq_normSpec : ∀ (n : Nat) (s : List Char), s.length ≤ n →
    ∀ i, preprocessAux s i false = normSpec s i := by
  intro n
  induction n with
  | zero =>
    intro s hs i
    have hnil : s = [] := List.eq_nil_of_length_eq_zero (Nat.le_zero.mp hs)
    subst hnil
    simp [preprocessAux, normSpec]
  | succ n ih =>
    intro s hs i
    cases s with
    | nil => simp [preprocessAux, normSpec]
    | cons c rest =>
      simp only [List.length_cons] at hs
      by_cases hnl : (c == '\n') = true
      · simp only [preprocessAux, normSpec, hnl, if_true]
        rw [ih rest (by omega) (i + 1)]
      · by_cases hws : isWsNotNl c = true
        · have hsp : isSpaceChar c = true := (isWsNotNl_spec c hws).2
          simp only [preprocessAux, normSpec, hnl, hws, hsp, if_true, if_false,
            Bool.false_eq_true]
          rw [preprocessAux_skip_run rest (i + 1), preprocessAux_flag_dropWhile rest]
          have hdl := (List.dropWhile_sublist (l := rest) isWsNotNl).length_le
          rw [ih (rest.dropWhile isWsNotNl) (by omega)]
        · have hws' : isWsNotNl c = false := by
            simp only [Bool.not_eq_true] at hws
            exact hws
          have hsp : isSpaceChar c = false :=
            isSpaceChar_false c (by simp only [Bool.not_eq_true] at hnl; exact hnl) hws'
          simp only [preprocessAux, normSpec, hnl, hws, hsp, if_false, Bool.false_eq_true]
          rw [ih rest (by omega) (i + 1)]

/-- C6 amended: the normalizer behaves exactly as claimed once
"whitespace" is read as the full C `isspace` class (space, tab, carriage
return, and also vertical tab and form feed): maximal runs of non-newline
whitespace collapse to one space carrying the raw index of the first
character of the run, newlines are emitted verbatim and never collapsed,
all other characters are ASCII-lowercased and carry their own raw index
(`preprocess s = normSpec s 0`), the canonical text and the offset map
have equal length, and the offset-map entries are non-decreasing. -/
theorem c6_amended (s : List Char) :
    preprocess s = normSpec s 0 ∧
    (preprocess s).1.length = (preprocess s).2.length ∧
    List.Pairwise (· ≤ ·) (preprocess s).2 := by
  refine ⟨preprocessAux_eq_normSpec s.length s le_rfl 0,
    preprocessAux_length s 0 false, ?_⟩
  exact (preprocessAux_pairwise s 0 false).imp (fun h => Nat.le_of_lt h)

/-- C6 counterexample: a vertical tab is collapsed into a space by the
code, although it is not among the claim's whitespace characters (space,
tab, carriage return) and would therefore have to be copied through
lowercased. -/
theorem c6_cex :
    (preprocess ['a', '\x0b', 'b']).1 = ['a', ' ', 'b'] ∧
    (preprocess ['a', '\x0b', 'b']).1 ≠ ['a', toLowerChar '\x0b', 'b'] := by
  decide

/-- C9 counterexample: on the document `ab`, resolving the empty
canonical range `[0, 0)` does not give the empty slice: the source clamps
`rawEndIdx` back up to `startProcessed` and returns the one-character
slice `a`. -/
theorem c9_cex :
    (mkDocument ['a','b']).rawSlice 0 0 = ['a'] ∧
    (mkDocument ['a','b']).rawSlice 0 0 ≠ [] := by
  decide

/-- The canonical text and the offset map of a constructed document have
the same length. -/
theorem mkDocument_text_length (raw : List Char) :
    (mkDocument raw).text.length = (mkDocument raw).indexMap.length :=
  preprocessAux_length raw 0 false

/-- Every offset-map entry of a constructed document is a valid raw
index. -/
theorem mkDocument_indexMap_lt (raw : List Char) :
    ∀ x ∈ (mkDocument raw).indexMap, x < raw.length := by
  intro x hx
  have h := preprocessAux_bounds raw 0 false x hx
  omega

/-- In-range `getD` lookups into the offset map are valid raw indices. -/
theorem mkDocument_getD_lt (raw : List Char) {s : Nat}
    (h : s < (mkDocument raw).indexMap.length) :
    (mkDocument raw).indexMap.getD s 0 < raw.length := by
  have h1 : (mkDocument raw).indexMap.getD s 0 = (mkDocument raw).indexMap.get ⟨s, h⟩ := by
    simp [List.getD_eq_getElem?_getD, List.getElem?_eq_getElem h, List.get_eq_getElem]
  rw [h1]
  exact mkDocument_indexMap_lt raw _ (List.get_mem _ _ h)

/-- The offset map is monotone under `getD` lookups. -/
theorem mkDocument_getD_mono (raw : List Char) {s t : Nat} (hst : s ≤ t)
    (ht : t < (mkDocument raw).indexMap.length) :
    (mkDocument raw).indexMap.getD s 0 ≤ (mkDocument raw).indexMap.getD t 0 := by
  rcases Nat.eq_or_lt_of_le hst with rfl | hlt
  · exact le_rfl
  · have hs : s < (mkDocument raw).indexMap.length := lt_trans hlt ht
    have hp := preprocessAux_pairwise raw 0 false
    have hg := List.pairwise_iff_getElem.mp hp s t hs ht hlt
    have h1 : (mkDocument raw).indexMap.getD s 0 = (mkDocument raw).indexMap.get ⟨s, hs⟩ := by
      simp [List.getD_eq_getElem?_getD, List.getElem?_eq_getElem hs, List.get_eq_getElem]
    have h2 : (mkDocument raw).indexMap.getD t 0 = (mkDocument raw).indexMap.get ⟨t, ht⟩ := by
      simp [List.getD_eq_getElem?_getD, List.getElem?_eq_getElem ht, List.get_eq_getElem]
    rw [h1, h2]
    simp only [List.get_eq_getElem]
    exact Nat.le_of_lt hg

/-- C9 amended: `rawSlice` on a canonical range `[s, e)` behaves as
follows.  If `s` is at or past the end of the canonical text the result
is empty.  For an empty or inverted range with `s` in range, the result
is not empty but the single raw character at `offsetMap[s]` (the source
clamps `rawEndIdx` back up to `startProcessed`).  For a non-empty range
with `e` within the canonical length, raw start is `offsetMap[s]` and raw
end is `offsetMap[e-1] + 1` clamped to the raw length, as the claim
states. -/
theorem c9_amended (raw : List Char) (s e : Nat) :
    ((mkDocument raw).text.length ≤ s → (mkDocument raw).rawSlice s e = []) ∧
    (s < (mkDocument raw).text.length → e ≤ s →
      (mkDocument raw).rawSlice s e =
        (raw.drop ((mkDocument raw).indexMap.getD s 0)).take 1) ∧
    (s < e → e ≤ (mkDocument raw).text.length →
      (mkDocument raw).rawSlice s e =
        (raw.drop ((mkDocument raw).indexMap.getD s 0)).take
          (min ((mkDocument raw).indexMap.getD (e - 1) 0 + 1) raw.length
            - (mkDocument raw).indexMap.getD s 0)) := by
  have hlen := mkDocument_text_length raw
  have hraw : (mkDocument raw).raw = raw := rfl
  refine ⟨?_, ?_, ?_⟩
  · intro hs
    simp only [Document.rawSlice]
    rw [if_pos (by omega)]
  · intro hs he
    have hsm : s < (mkDocument raw).indexMap.length := by omega
    have hg := mkDocument_getD_lt raw hsm
    simp only [Document.rawSlice]
    rw [if_neg (by omega)]
    have hidx : max (min (max e s) (mkDocument raw).indexMap.length - 1) s = s := by
      omega
    rw [hidx, hraw]
    rw [if_neg (by omega)]
    have h1 : min ((mkDocument raw).indexMap.getD s 0 + 1) raw.length
        - (mkDocument raw).indexMap.getD s 0 = 1 := by omega
    rw [h1]
  · intro hse he
    have hsm : s < (mkDocument raw).indexMap.length := by omega
    have hem : e - 1 < (mkDocument raw).indexMap.length := by omega
    have hgs := mkDocument_getD_lt raw hsm
    have hge := mkDocument_getD_lt raw hem
    have hmono := mkDocument_getD_mono raw (show s ≤ e - 1 by omega) hem
    simp only [Document.rawSlice]
    rw [if_neg (by omega)]
    have hidx : max (min (max e s) (mkDocument raw).indexMap.length - 1) s = e - 1 := by
      omega
    rw [hidx, hraw]
    rw [if_neg (by omega)]

/-- Witness for C9 amended at the document `ab` and the range `[0, 2)`. -/
theorem c9_amended_witness :
    0 < 2 ∧ 2 ≤ (mkDocument ['a','b']).text.length ∧
    (mkDocument ['a','b']).rawSlice 0 2 =
      ((['a','b'] : List Char).drop ((mkDocument ['a','b']).indexMap.getD 0 0)).take
        (min ((mkDocument ['a','b']).indexMap.getD (2 - 1) 0 + 1) (['a','b'] : List Char).length
          - (mkDocument ['a','b']).indexMap.getD 0 0) :=
  ⟨by decide, by decide, (c9_amended ['a','b'] 0 2).2.2 (by decide) (by decide)⟩

/-- Folding the step-reduced hash update from a reduced accumulator is
the reduction of the unreduced fold. -/
theorem foldl_hash_mod (l : List Char) : ∀ a : Nat,
    l.foldl (fun h c => (h * hashBase + c.toNat) % hashMod) (a % hashMod)
      = (l.foldl (fun h c => h * hashBase + c.toNat) a) % hashMod := by
  induction l with
  | nil => intro a; rfl
  | cons c l ih =>
    intro a
    simp only [List.foldl_cons]
    have h1 : (a % hashMod * hashBase + c.toNat) % hashMod
        = (a * hashBase + c.toNat) % hashMod :=
      ((Nat.mod_modEq a hashMod).mul_right hashBase).add_right c.toNat
    rw [h1, ih (a * hashBase + c.toNat)]

/-- The per-step-reduced polynomial hash equals the unreduced polynomial
value reduced once. -/
theorem polyHash_eq_mod (l : List Char) : polyHash l = polyVal l % hashMod := by
  rw [polyHash, polyVal, ← foldl_hash_mod l 0, Nat.zero_mod]

/-- Appending one character to the unreduced polynomial value. -/
theorem polyVal_append (l : List Char) (c : Char) :
    polyVal (l ++ [c]) = polyVal l * hashBase + c.toNat := by
  simp [polyVal, List.foldl_append]

/-- Peeling the leading character off the unreduced polynomial value. -/
theorem polyVal_cons (c : Char) (l : List Char) :
    polyVal (c :: l) = c.toNat * hashBase ^ l.length + polyVal l := by
  induction l using List.reverseRecOn with
  | nil => simp [polyVal]
  | append_singleton l d ih =>
    rw [← List.cons_append, polyVal_append, polyVal_append, ih]
    simp only [List.length_append, List.length_cons, List.length_nil, pow_succ]
    ring

/-- One rolling-hash update moves the window hash one position to the
right: this is the correctness of the `t` update in `findOccurrences`. -/
theorem rollStep_correct (text : List Char) (m i : Nat) (hm : 1 ≤ m)
    (h2 : i + 1 + m ≤ text.length) :
    rollStep (polyHash ((text.drop i).take m)) (text.getD i ' ').toNat
        (text.getD (i + m) ' ').toNat (hashBase ^ (m - 1) % hashMod)
      = polyHash ((text.drop (i + 1)).take m) := by
  have hi : i < text.length := by omega
  have him : i + m < text.length := by omega
  have hwin1 : (text.drop i).take m
      = text.getD i ' ' :: (text.drop (i + 1)).take (m - 1) := by
    rw [List.drop_eq_getElem_cons hi]
    cases m with
    | zero => omega
    | succ k =>
      rw [List.take_succ_cons]
      simp [List.getD_eq_getElem?_getD, List.getElem?_eq_getElem hi]
  have hwin2 : (text.drop (i + 1)).take m
      = (text.drop (i + 1)).take (m - 1) ++ [text.getD (i + m) ' '] := by
    have hm1 : m - 1 + 1 = m := by omega
    conv_lhs => rw [← hm1]
    rw [List.take_succ]
    congr 1
    rw [List.getElem?_drop]
    have hidx : i + 1 + (m - 1) = i + m := by omega
    rw [hidx, List.getElem?_eq_getElem him]
    simp [List.getD_eq_getElem?_getD, List.getElem?_eq_getElem him]
  have hmidlen : ((text.drop (i + 1)).take (m - 1)).length = m - 1 := by
    rw [List.length_take, List.length_drop]
    omega
  have hph1 : polyHash ((text.drop i).take m)
      = ((text.getD i ' ').toNat * hashBase ^ (m - 1)
          + polyVal ((text.drop (i + 1)).take (m - 1))) % hashMod := by
    rw [hwin1, polyHash_eq_mod, polyVal_cons, hmidlen]
  have hph2 : polyHash ((text.drop (i + 1)).take m)
      = (polyVal ((text.drop (i + 1)).take (m - 1)) * hashBase
          + (text.getD (i + m) ' ').toNat) % hashMod := by
    rw [hwin2, polyHash_eq_mod, polyVal_append]
  rw [hph1, hph2]
  simp only [rollStep]
  generalize (text.getD i ' ').toNat = cO
  generalize (text.getD (i + m) ' ').toNat = cN
  generalize polyVal ((text.drop (i + 1)).take (m - 1)) = V
  have hppos : 0 < hashMod := by norm_num [hashMod]
  have hXlt : cO * (hashBase ^ (m - 1) % hashMod) % hashMod < hashMod :=
    Nat.mod_lt _ hppos
  have hXle : cO * (hashBase ^ (m - 1) % hashMod) % hashMod
      ≤ (cO * hashBase ^ (m - 1) + V) % hashMod + hashMod := by omega
  have ha : cO * (hashBase ^ (m - 1) % hashMod) % hashMod
      ≡ cO * hashBase ^ (m - 1) [MOD hashMod] :=
    (Nat.mod_modEq _ hashMod).trans ((Nat.mod_modEq (hashBase ^ (m - 1)) hashMod).mul_left cO)
  have h5 : (cO * hashBase ^ (m - 1) + V) % hashMod + hashMod
      ≡ (cO * hashBase ^ (m - 1) + V) % hashMod [MOD hashMod] := by
    unfold Nat.ModEq
    rw [Nat.add_mod_right]
  have h6 : (cO * hashBase ^ (m - 1) + V) % hashMod
      ≡ cO * hashBase ^ (m - 1) + V [MOD hashMod] := Nat.mod_modEq _ hashMod
  have h8 : (cO * hashBase ^ (m - 1) + V) % hashMod + hashMod
      ≡ V + cO * (hashBase ^ (m - 1) % hashMod) % hashMod [MOD hashMod] := by
    have h7 := (h5.trans h6).trans (ha.symm.add_right V)
    rw [Nat.add_comm (cO * (hashBase ^ (m - 1) % hashMod) % hashMod) V] at h7
    exact h7
  have hd : (cO * hashBase ^ (m - 1) + V) % hashMod + hashMod
        - cO * (hashBase ^ (m - 1) % hashMod) % hashMod ≡ V [MOD hashMod] := by
    refine Nat.ModEq.add_right_cancel
      (Nat.ModEq.refl (cO * (hashBase ^ (m - 1) % hashMod) % hashMod)) ?_
    rw [Nat.sub_add_cancel hXle]
    exact h8
  have h10 : hashBase * ((cO * hashBase ^ (m - 1) + V) % hashMod + hashMod
        - cO * (hashBase ^ (m - 1) % hashMod) % hashMod) + cN
      ≡ hashBase * V + cN [MOD hashMod] := (hd.mul_left hashBase).add_right cN
  calc (hashBase * ((cO * hashBase ^ (m - 1) + V) % hashMod + hashMod
          - cO * (hashBase ^ (m - 1) % hashMod) % hashMod) % hashMod + cN) % hashMod
      = (hashBase * ((cO * hashBase ^ (m - 1) + V) % hashMod + hashMod
          - cO * (hashBase ^ (m - 1) % hashMod) % hashMod) + cN) % hashMod :=
        Nat.mod_add_mod _ _ _
    _ = (hashBase * V + cN) % hashMod := h10
    _ = (V * hashBase + cN) % hashMod := by rw [Nat.mul_comm]

/-- The scan loop of `findOccurrences`, started at position `i` with the
correct window hash, returns exactly the literal occurrence positions in
`[i, i + cnt)`. -/
theorem findOccAux_eq (text pat : List Char) (hm : 1 ≤ pat.length) :
    ∀ (cnt i : Nat), i + cnt = text.length - pat.length + 1 →
      i + pat.length ≤ text.length →
      findOccAux text pat (polyHash pat) (hashBase ^ (pat.length - 1) % hashMod) cnt i
          (polyHash ((text.drop i).take pat.length))
        = (List.range' i cnt).filter (fun j => (text.drop j).take pat.length == pat) := by
  intro cnt
  induction cnt with
  | zero => intro i h1 h2; rfl
  | succ cnt ih =>
    intro i h1 h2
    rw [List.range'_succ, List.filter_cons]
    have hcond : ((text.drop i).take pat.length == pat) = true →
        (polyHash pat = polyHash ((text.drop i).take pat.length)
          ∧ (text.drop i).take pat.length = pat) := by
      intro hc
      have he : (text.drop i).take pat.length = pat := by simpa using hc
      exact ⟨by rw [he], he⟩
    have hcond' : (polyHash pat = polyHash ((text.drop i).take pat.length)
        ∧ (text.drop i).take pat.length = pat) →
        ((text.drop i).take pat.length == pat) = true := by
      intro hc
      simpa using hc.2
    rcases Nat.eq_zero_or_pos cnt with rfl | hpos
    · simp only [findOccAux]
      by_cases hc : ((text.drop i).take pat.length == pat) = true
      · rw [if_pos (hcond hc), if_pos hc]
        rfl
      · rw [if_neg (fun hcc => hc (hcond' hcc)), if_neg hc]
        rfl
    · have hroll : rollStep (polyHash ((text.drop i).take pat.length))
          (text.getD i ' ').toNat (text.getD (i + pat.length) ' ').toNat
          (hashBase ^ (pat.length - 1) % hashMod)
          = polyHash ((text.drop (i + 1)).take pat.length) :=
        rollStep_correct text pat.length i hm (by omega)
      simp only [findOccAux, hroll]
      rw [ih (i + 1) (by omega) (by omega)]
      by_cases hc : ((text.drop i).take pat.length == pat) = true
      · rw [if_pos (hcond hc), if_pos hc]
      · rw [if_neg (fun hcc => hc (hcond' hcc)), if_neg hc]

/-- Membership in `findOccurrences`: exactly the literal occurrence
positions.  A hash-value match alone never adds a position, and no
literal occurrence is missed. -/
theorem findOccurrences_mem (text pat : List Char) (i : Nat) :
    i ∈ findOccurrences text pat ↔
      pat ≠ [] ∧ i + pat.length ≤ text.length ∧
        (text.drop i).take pat.length = pat := by
  rw [findOccurrences]
  by_cases hguard : pat.length = 0 ∨ text.length < pat.length
  · rw [if_pos hguard]
    simp only [List.not_mem_nil, false_iff]
    rintro ⟨hne, hle, -⟩
    rcases hguard with h0 | hlt
    · exact hne (List.eq_nil_of_length_eq_zero h0)
    · omega
  · rw [if_neg hguard]
    push_neg at hguard
    have hm : 1 ≤ pat.length := by omega
    have h0 : text.take pat.length = (text.drop 0).take pat.length := by simp
    rw [h0, findOccAux_eq text pat hm (text.length - pat.length + 1) 0 (by omega)
      (by omega)]
    simp only [List.mem_filter, List.mem_range'_1, beq_iff_eq]
    constructor
    · rintro ⟨⟨-, hlt⟩, heq⟩
      refine ⟨List.ne_nil_of_length_pos (by omega), by omega, heq⟩
    · rintro ⟨-, hle, heq⟩
      exact ⟨⟨Nat.zero_le i, by omega⟩, heq⟩

/-- C2 amended: every occurrence position the matcher's hash scan emits
is character-verified — `findOccurrences(text, pattern)` contains `i`
exactly when the nonempty pattern fits at `i` and matches the text
character for character there, so a rolling-hash value match alone never
produces an occurrence.  (Spans assembled from these occurrences can
still cover mismatching regions after union-merging, see the
counterexample.) -/
theorem c2_amended (text pat : List Char) (i : Nat) :
    i ∈ findOccurrences text pat ↔
      pat ≠ [] ∧ i + pat.length ≤ text.length ∧
        (text.drop i).take pat.length = pat :=
  findOccurrences_mem text pat i

/-- `occursBool` holds exactly when the pattern fits and matches
somewhere. -/
theorem occursBool_iff (pat text : List Char) :
    occursBool pat text = true ↔
      ∃ j, j + pat.length ≤ text.length ∧ (text.drop j).take pat.length = pat := by
  rw [occursBool, List.any_eq_true]
  constructor
  · rintro ⟨j, -, hj⟩
    rw [substringAt, Bool.and_eq_true] at hj
    exact ⟨j, by simpa using hj.1, by simpa using hj.2⟩
  · rintro ⟨j, hle, heq⟩
    refine ⟨j, List.mem_range.mpr (by omega), ?_⟩
    rw [substringAt, Bool.and_eq_true]
    exact ⟨by simpa using hle, by simpa using heq⟩

/-- The occurrence list of a nonempty pattern is nonempty exactly when
the pattern occurs literally in the text. -/
theorem findOccurrences_isEmpty_iff (text pat : List Char) (hm : pat ≠ []) :
    (findOccurrences text pat).isEmpty = false ↔ occursBool pat text = true := by
  rw [List.isEmpty_eq_false, occursBool_iff pat text]
  constructor
  · intro hne
    obtain ⟨j, hj⟩ := List.exists_mem_of_ne_nil _ hne
    obtain ⟨-, hle, heq⟩ := (findOccurrences_mem text pat j).mp hj
    exact ⟨j, hle, heq⟩
  · rintro ⟨j, hle, heq⟩
    intro hnil
    have hj := (findOccurrences_mem text pat j).mpr ⟨hm, hle, heq⟩
    rw [hnil] at hj
    exact List.not_mem_nil j hj

/-- The window start positions are exactly the multiples of the stride 4
at which an 8-character window fits. -/
theorem windowStarts_eq_filter (n : Nat) (hn : 8 ≤ n) :
    (List.range n).filter (fun i => decide (i % 4 = 0) && decide (i + 8 ≤ n))
      = windowStarts n := by
  have h1 : List.Nodup ((List.range n).filter
      (fun i => decide (i % 4 = 0) && decide (i + 8 ≤ n))) :=
    (List.nodup_range n).filter _
  have h2 : List.Nodup (windowStarts n) := by
    rw [windowStarts, if_neg (by omega)]
    exact (List.nodup_range _).map (fun x y hxy => by omega)
  have hmem : ∀ x, x ∈ (List.range n).filter
        (fun i => decide (i % 4 = 0) && decide (i + 8 ≤ n))
      ↔ x ∈ windowStarts n := by
    intro x
    rw [List.mem_filter, List.mem_range, windowStarts, if_neg (by omega)]
    simp only [List.mem_map, List.mem_range, Bool.and_eq_true, decide_eq_true_eq]
    constructor
    · rintro ⟨hlt, hmod, hle⟩
      exact ⟨x / 4, by omega, by omega⟩
    · rintro ⟨k, hk, rfl⟩
      exact ⟨by omega, by omega, by omega⟩
  have hs1 : List.Pairwise (· ≤ ·) ((List.range n).filter
      (fun i => decide (i % 4 = 0) && decide (i + 8 ≤ n))) :=
    ((List.pairwise_lt_range n).filter _).imp (fun h => Nat.le_of_lt h)
  have hs2 : List.Pairwise (· ≤ ·) (windowStarts n) := by
    rw [windowStarts, if_neg (by omega)]
    exact List.pairwise_map.mpr ((List.pairwise_lt_range _).imp (fun h => by omega))
  exact List.eq_of_perm_of_sorted ((List.perm_ext_iff_of_nodup h1 h2).mpr hmem) hs1 hs2

/-- Counting invariant of the window-scan fold: `total` grows by the
number of windows examined and `matched` by the number of windows with a
nonempty occurrence list. -/
theorem rkFold_counts (a b : Document) (L : List Nat) :
    ∀ st : List MatchSpan × Nat × Nat,
      ((L.foldl (rkStep a b) st).2.1 = st.2.1 + L.length) ∧
      ((L.foldl (rkStep a b) st).2.2 = st.2.2
        + (L.filter (fun i =>
            !(findOccurrences b.text ((a.text.drop i).take 8)).isEmpty)).length) := by
  induction L with
  | nil => intro st; simp
  | cons i L ih =>
    intro st
    rw [List.foldl_cons, List.filter_cons]
    by_cases hocc : (findOccurrences b.text ((a.text.drop i).take 8)).isEmpty = true
    · have hstep : rkStep a b st i = (st.1, st.2.1 + 1, st.2.2) := by
        simp [rkStep, hocc]
      rw [hstep]
      have hc := ih (st.1, st.2.1 + 1, st.2.2)
      constructor
      · rw [hc.1]
        simp only [List.length_cons]
        omega
      · rw [hc.2]
        simp [hocc]
    · have hocc' : (findOccurrences b.text ((a.text.drop i).take 8)).isEmpty = false := by
        simp only [Bool.not_eq_true] at hocc
        exact hocc
      have hstep : rkStep a b st i =
          ((findOccurrences b.text ((a.text.drop i).take 8)).foldl (fun sps sB0 =>
            mergeOrAdd a b sps (extendBack a.text b.text i sB0).1
              (extendFwd a.text b.text (i + 8) (sB0 + 8)).1
              (extendBack a.text b.text i sB0).2
              (extendFwd a.text b.text (i + 8) (sB0 + 8)).2) st.1,
           st.2.1 + 1, st.2.2 + 1) := by
        simp [rkStep, hocc']
      rw [hstep]
      have hc := ih ((findOccurrences b.text ((a.text.drop i).take 8)).foldl (fun sps sB0 =>
          mergeOrAdd a b sps (extendBack a.text b.text i sB0).1
            (extendFwd a.text b.text (i + 8) (sB0 + 8)).1
            (extendBack a.text b.text i sB0).2
            (extendFwd a.text b.text (i + 8) (sB0 + 8)).2) st.1,
        st.2.1 + 1, st.2.2 + 1)
      constructor
      · rw [hc.1]
        simp only [List.length_cons]
        omega
      · rw [hc.2]
        simp [hocc']
        omega

/-- The length of the window-start list. -/
theorem windowStarts_length (n : Nat) (hn : 8 ≤ n) :
    (windowStarts n).length = (n - 8) / 4 + 1 := by
  rw [windowStarts, if_neg (by omega)]
  simp

/-- In the general case, `rkScore` returns the fold's matched/total
ratio and its span list. -/
theorem rkScore_general_eq (a b : Document) (hne : a.text ≠ b.text)
    (hA : 8 ≤ a.text.length) (hB : 8 ≤ b.text.length) :
    rkScore a b =
      (((((windowStarts a.text.length).foldl (rkStep a b) ([], 0, 0)).2.2 : ℚ) * 100)
          / ((((windowStarts a.text.length).foldl (rkStep a b) ([], 0, 0)).2.1 : ℚ)),
        ((windowStarts a.text.length).foldl (rkStep a b) ([], 0, 0)).1) := by
  have hc := rkFold_counts a b (windowStarts a.text.length) ([], 0, 0)
  have hwlen := windowStarts_length a.text.length hA
  have hne0 : ¬(((windowStarts a.text.length).foldl (rkStep a b) ([], 0, 0)).2.1 = 0) := by
    simp only [hc.1, hwlen]
    omega
  rw [rkScore, if_neg hne, if_neg (by omega)]
  show (if ((windowStarts a.text.length).foldl (rkStep a b) ([], 0, 0)).2.1 = 0
      then _ else _) = _
  rw [if_neg hne0]

/-- The numerator of the general-case score: windows with a nonempty
occurrence list are exactly the stride positions whose window occurs
literally in `b`. -/
theorem matched_windows_eq (a b : Document) (hA : 8 ≤ a.text.length) :
    ((List.range a.text.length).filter (fun i =>
      decide (i % 4 = 0) && decide (i + 8 ≤ a.text.length)
        && occursBool ((a.text.drop i).take 8) b.text))
      = (windowStarts a.text.length).filter (fun i =>
          !(findOccurrences b.text ((a.text.drop i).take 8)).isEmpty) := by
  have hflip : ((List.range a.text.length).filter (fun i =>
      decide (i % 4 = 0) && decide (i + 8 ≤ a.text.length)
        && occursBool ((a.text.drop i).take 8) b.text))
      = ((List.range a.text.length).filter (fun i =>
          occursBool ((a.text.drop i).take 8) b.text
            && (decide (i % 4 = 0) && decide (i + 8 ≤ a.text.length)))) :=
    List.filter_congr (fun x _ => by rw [Bool.and_comm])
  rw [hflip, ← List.filter_filter, windowStarts_eq_filter a.text.length hA]
  refine List.filter_congr ?_
  intro x hx
  have hxw : x % 4 = 0 ∧ x + 8 ≤ a.text.length := by
    have hmem : x ∈ (List.range a.text.length).filter
        (fun i => decide (i % 4 = 0) && decide (i + 8 ≤ a.text.length)) := by
      rw [windowStarts_eq_filter a.text.length hA]
      exact hx
    rw [List.mem_filter] at hmem
    simpa using hmem.2
  have hpatlen : ((a.text.drop x).take 8).length = 8 := by
    rw [List.length_take, List.length_drop]
    omega
  have hpat : (a.text.drop x).take 8 ≠ [] :=
    List.ne_nil_of_length_pos (by omega)
  have hiff := findOccurrences_isEmpty_iff b.text ((a.text.drop x).take 8) hpat
  cases hb : (findOccurrences b.text ((a.text.drop x).take 8)).isEmpty with
  | false =>
    rw [hiff.mp hb]
    rfl
  | true =>
    cases ho : occursBool ((a.text.drop x).take 8) b.text with
    | false => rfl
    | true =>
      exfalso
      have hcontra := hiff.mpr ho
      rw [hb] at hcontra
      simp at hcontra

/-- C3: in the general case (both canonical texts of length at least 8
and not identical), the exact-match score is 100 times the number of
stride-4 window start positions whose 8-character window of `a` occurs
literally in `b`, divided by the total number of such window start
positions; multiple occurrences of one window still count once. -/
theorem c3_general (a b : Document) (hA : 8 ≤ a.text.length) (hB : 8 ≤ b.text.length)
    (hne : a.text ≠ b.text) :
    (rkScore a b).1 =
      100 * (((List.range a.text.length).filter (fun i =>
          decide (i % 4 = 0) && decide (i + 8 ≤ a.text.length)
            && occursBool ((a.text.drop i).take 8) b.text)).length : ℚ)
        / (((List.range a.text.length).filter (fun i =>
          decide (i % 4 = 0) && decide (i + 8 ≤ a.text.length))).length : ℚ) := by
  have hc := rkFold_counts a b (windowStarts a.text.length) ([], 0, 0)
  rw [rkScore_general_eq a b hne hA hB]
  show ((((windowStarts a.text.length).foldl (rkStep a b) ([], 0, 0)).2.2 : ℚ) * 100)
      / ((((windowStarts a.text.length).foldl (rkStep a b) ([], 0, 0)).2.1 : ℚ)) = _
  rw [hc.1, hc.2, matched_windows_eq a b hA, windowStarts_eq_filter a.text.length hA]
  push_cast
  ring

/-- Witness for C3 on the 8-character documents `abcdefgh` and
`abcdefgx`. -/
theorem c3_general_witness :
    8 ≤ (mkDocument ['a','b','c','d','e','f','g','h']).text.length ∧
    8 ≤ (mkDocument ['a','b','c','d','e','f','g','x']).text.length ∧
    (mkDocument ['a','b','c','d','e','f','g','h']).text
      ≠ (mkDocument ['a','b','c','d','e','f','g','x']).text ∧
    (rkScore (mkDocument ['a','b','c','d','e','f','g','h'])
        (mkDocument ['a','b','c','d','e','f','g','x'])).1 =
      100 * (((List.range (mkDocument ['a','b','c','d','e','f','g','h']).text.length).filter
          (fun i => decide (i % 4 = 0)
            && decide (i + 8 ≤ (mkDocument ['a','b','c','d','e','f','g','h']).text.length)
            && occursBool (((mkDocument ['a','b','c','d','e','f','g','h']).text.drop i).take 8)
              (mkDocument ['a','b','c','d','e','f','g','x']).text)).length : ℚ)
        / (((List.range (mkDocument ['a','b','c','d','e','f','g','h']).text.length).filter
          (fun i => decide (i % 4 = 0)
            && decide (i + 8 ≤ (mkDocument ['a','b','c','d','e','f','g','h']).text.length))).length : ℚ) :=
  ⟨by decide, by decide, by decide,
    c3_general (mkDocument ['a','b','c','d','e','f','g','h'])
      (mkDocument ['a','b','c','d','e','f','g','x']) (by decide) (by decide) (by decide)⟩

/-- Backward extension never increases either start position. -/
theorem extendBack_le (ta tb : List Char) : ∀ sA sB,
    (extendBack ta tb sA sB).1 ≤ sA ∧ (extendBack ta tb sA sB).2 ≤ sB := by
  intro sA
  induction sA with
  | zero => intro sB; exact ⟨le_rfl, le_rfl⟩
  | succ sA ih =>
    intro sB
    cases sB with
    | zero => exact ⟨le_rfl, le_rfl⟩
    | succ sB =>
      simp only [extendBack]
      by_cases hc : ta.getD sA ' ' = tb.getD sB ' '
      · rw [if_pos hc]
        have hle := ih sB
        omega
      · rw [if_neg hc]
        exact ⟨le_rfl, le_rfl⟩

/-- The forward-extension loop never decreases either end position. -/
theorem extendFwdAux_ge (ta tb : List Char) : ∀ fuel eA eB,
    eA ≤ (extendFwdAux ta tb fuel eA eB).1 ∧ eB ≤ (extendFwdAux ta tb fuel eA eB).2 := by
  intro fuel
  induction fuel with
  | zero => intro eA eB; exact ⟨le_rfl, le_rfl⟩
  | succ fuel ih =>
    intro eA eB
    simp only [extendFwdAux]
    split
    · have hge := ih (eA + 1) (eB + 1)
      omega
    · exact ⟨le_rfl, le_rfl⟩

/-- Forward extension never decreases either end position. -/
theorem extendFwd_ge (ta tb : List Char) (eA eB : Nat) :
    eA ≤ (extendFwd ta tb eA eB).1 ∧ eB ≤ (extendFwd ta tb eA eB).2 :=
  extendFwdAux_ge ta tb (ta.length - eA) eA eB

/-- `merge_or_add` preserves positive span widths when the inserted
ranges have positive widths. -/
theorem mergeOrAdd_widths (a b : Document) :
    ∀ (spans : List MatchSpan) (sA eA sB eB : Nat),
      (∀ sp ∈ spans, sp.startA < sp.endA ∧ sp.startB < sp.endB) →
      sA < eA → sB < eB →
      ∀ sp ∈ mergeOrAdd a b spans sA eA sB eB,
        sp.startA < sp.endA ∧ sp.startB < sp.endB := by
  intro spans
  induction spans with
  | nil =>
    intro sA eA sB eB hsp hA hB sp hmem
    simp only [mergeOrAdd, List.mem_singleton] at hmem
    subst hmem
    exact ⟨hA, hB⟩
  | cons sp0 rest ih =>
    intro sA eA sB eB hsp hA hB sp hmem
    simp only [mergeOrAdd] at hmem
    by_cases hov : overlapsBoth sp0 sA eA sB eB = true
    · rw [if_pos hov] at hmem
      rcases List.mem_cons.mp hmem with rfl | hmem'
      · have h0 := hsp sp0 (List.mem_cons_self sp0 rest)
        have e1 : (widenSpan a b sp0 sA eA sB eB).startA = min sp0.startA sA := rfl
        have e2 : (widenSpan a b sp0 sA eA sB eB).endA = max sp0.endA eA := rfl
        have e3 : (widenSpan a b sp0 sA eA sB eB).startB = min sp0.startB sB := rfl
        have e4 : (widenSpan a b sp0 sA eA sB eB).endB = max sp0.endB eB := rfl
        rw [e1, e2, e3, e4]
        omega
      · exact hsp sp (List.mem_cons_of_mem sp0 hmem')
    · rw [if_neg hov] at hmem
      rcases List.mem_cons.mp hmem with rfl | hmem'
      · exact hsp sp (List.mem_cons_self sp rest)
      · exact ih sA eA sB eB (fun q hq => hsp q (List.mem_cons_of_mem sp0 hq)) hA hB sp hmem'

/-- Folding the extend-and-merge step over an occurrence list preserves
positive span widths. -/
theorem occFold_widths (a b : Document) (i : Nat) :
    ∀ (occ : List Nat) (spans : List MatchSpan),
      (∀ sp ∈ spans, sp.startA < sp.endA ∧ sp.startB < sp.endB) →
      ∀ sp ∈ occ.foldl (fun sps sB0 =>
          mergeOrAdd a b sps (extendBack a.text b.text i sB0).1
            (extendFwd a.text b.text (i + 8) (sB0 + 8)).1
            (extendBack a.text b.text i sB0).2
            (extendFwd a.text b.text (i + 8) (sB0 + 8)).2) spans,
        sp.startA < sp.endA ∧ sp.startB < sp.endB := by
  intro occ
  induction occ with
  | nil => intro spans hsp sp hmem; exact hsp sp hmem
  | cons j occ ih =>
    intro spans hsp sp hmem
    rw [List.foldl_cons] at hmem
    refine ih _ ?_ sp hmem
    intro sp' hmem'
    refine mergeOrAdd_widths a b spans _ _ _ _ hsp ?_ ?_ sp' hmem'
    · have h1 := (extendBack_le a.text b.text i j).1
      have h2 := (extendFwd_ge a.text b.text (i + 8) (j + 8)).1
      omega
    · have h1 := (extendBack_le a.text b.text i j).2
      have h2 := (extendFwd_ge a.text b.text (i + 8) (j + 8)).2
      omega

/-- The window-scan fold preserves positive span widths. -/
theorem rkFold_widths (a b : Document) :
    ∀ (L : List Nat) (st : List MatchSpan × Nat × Nat),
      (∀ sp ∈ st.1, sp.startA < sp.endA ∧ sp.startB < sp.endB) →
      ∀ sp ∈ (L.foldl (rkStep a b) st).1,
        sp.startA < sp.endA ∧ sp.startB < sp.endB := by
  intro L
  induction L with
  | nil => intro st hst sp hmem; exact hst sp hmem
  | cons i L ih =>
    intro st hst sp hmem
    rw [List.foldl_cons] at hmem
    refine ih _ ?_ sp hmem
    intro sp' hmem'
    by_cases hocc : (findOccurrences b.text ((a.text.drop i).take 8)).isEmpty = true
    · have hstep : rkStep a b st i = (st.1, st.2.1 + 1, st.2.2) := by
        simp [rkStep, hocc]
      rw [hstep] at hmem'
      exact hst sp' hmem'
    · have hocc' : (findOccurrences b.text ((a.text.drop i).take 8)).isEmpty = false := by
        simp only [Bool.not_eq_true] at hocc
        exact hocc
      have hstep : rkStep a b st i =
          ((findOccurrences b.text ((a.text.drop i).take 8)).foldl (fun sps sB0 =>
            mergeOrAdd a b sps (extendBack a.text b.text i sB0).1
              (extendFwd a.text b.text (i + 8) (sB0 + 8)).1
              (extendBack a.text b.text i sB0).2
              (extendFwd a.text b.text (i + 8) (sB0 + 8)).2) st.1,
           st.2.1 + 1, st.2.2 + 1) := by
        simp [rkStep, hocc']
      rw [hstep] at hmem'
      exact occFold_widths a b i _ st.1 hst sp' hmem'

/-- The fallback branch of `rkScore` with a nonempty shorter text. -/
theorem rkScore_short_pos_eq (a b : Document) (hne : a.text ≠ b.text)
    (hshort : a.text.length < 8 ∨ b.text.length < 8)
    (hmin : 0 < min a.text.length b.text.length) :
    rkScore a b =
      (((((List.range (min a.text.length b.text.length)).filter
            (fun i => a.text.getD i ' ' == b.text.getD i ' ')).length : ℚ) * 100)
          / (((min a.text.length b.text.length : ℕ) : ℚ)),
        [mkSpan a b 0 (min a.text.length b.text.length) 0
          (min a.text.length b.text.length)]) := by
  rw [rkScore, if_neg hne, if_pos hshort]
  show (if 0 < min a.text.length b.text.length then _ else _) = _
  rw [if_pos hmin]

/-- The fallback branch of `rkScore` with an empty shorter text. -/
theorem rkScore_short_zero_eq (a b : Document) (hne : a.text ≠ b.text)
    (hshort : a.text.length < 8 ∨ b.text.length < 8)
    (hmin : ¬ 0 < min a.text.length b.text.length) :
    rkScore a b = (0, []) := by
  rw [rkScore, if_neg hne, if_pos hshort]
  show (if 0 < min a.text.length b.text.length then _ else _) = _
  rw [if_neg hmin]

/-- C7 amended: unless both canonical texts are empty, every emitted
span is non-degenerate (`end > start` on both sides) — in every branch:
degenerate equality, short-text fallback, and the general window scan.
(Two empty documents produce the single degenerate span `(0,0,0,0)`, see
the counterexample.) -/
theorem c7_amended (a b : Document) (h : a.text ≠ [] ∨ b.text ≠ []) :
    ((rkScore a b).2.all (fun sp =>
      decide (sp.startA < sp.endA) && decide (sp.startB < sp.endB))) = true := by
  rw [List.all_eq_true]
  intro sp hmem
  rw [Bool.and_eq_true, decide_eq_true_eq, decide_eq_true_eq]
  by_cases hid : a.text = b.text
  · rw [rkScore, if_pos hid] at hmem
    simp only [List.mem_singleton] at hmem
    subst hmem
    have hlen : 0 < a.text.length := by
      rcases h with h | h
      · exact List.length_pos.mpr h
      · rw [hid]
        exact List.length_pos.mpr h
    constructor
    · show (0 : Nat) < a.text.length
      exact hlen
    · show (0 : Nat) < b.text.length
      rw [← hid]
      exact hlen
  · by_cases hshort : a.text.length < 8 ∨ b.text.length < 8
    · by_cases hmin : 0 < min a.text.length b.text.length
      · rw [rkScore_short_pos_eq a b hid hshort hmin] at hmem
        simp only [List.mem_singleton] at hmem
        subst hmem
        exact ⟨hmin, hmin⟩
      · rw [rkScore_short_zero_eq a b hid hshort hmin] at hmem
        simp at hmem
    · push_neg at hshort
      rw [rkScore_general_eq a b hid hshort.1 hshort.2] at hmem
      exact rkFold_widths a b (windowStarts a.text.length) ([], 0, 0)
        (by intro q hq; simp at hq) sp hmem

/-- Witness for C7 amended on two one-character documents. -/
theorem c7_amended_witness :
    ((mkDocument ['a']).text ≠ [] ∨ (mkDocument ['b']).text ≠ []) ∧
    ((rkScore (mkDocument ['a']) (mkDocument ['b'])).2.all (fun sp =>
      decide (sp.startA < sp.endA) && decide (sp.startB < sp.endB))) = true :=
  ⟨Or.inl (by decide), c7_amended (mkDocument ['a']) (mkDocument ['b'])
    (Or.inl (by decide))⟩

/-- Inclusion–exclusion: the code's `|A| + |B| - |A ∩ B|` denominator is
the size of the union. -/
theorem card_union_eq (a b : Document) :
    ((shingleSet a).card : ℚ) + ((shingleSet b).card : ℚ)
      - ((shingleSet a ∩ shingleSet b).card : ℚ)
      = ((shingleSet a ∪ shingleSet b).card : ℚ) := by
  have h := Finset.card_union_add_card_inter (shingleSet a) (shingleSet b)
  have h2 : ((shingleSet a ∪ shingleSet b).card : ℚ)
      + ((shingleSet a ∩ shingleSet b).card : ℚ)
      = ((shingleSet a).card : ℚ) + ((shingleSet b).card : ℚ) := by
    exact_mod_cast congrArg (fun n : ℕ => (n : ℚ)) h
  linarith

/-- The main branch of `JaccardChecker::score` as a function of the raw
Jaccard value. -/
theorem jcScore_main_eq (a b : Document) (hne : a.text ≠ b.text)
    (hA : ¬ shingleSet a = ∅) (hB : ¬ shingleSet b = ∅) :
    jcScore a b =
      if 0 < rawJaccard a b ∧ rawJaccard a b < 20
      then 20 + rawJaccard a b * 0.8 else rawJaccard a b := by
  rw [jcScore, if_neg hne]
  show (if shingleSet a = ∅ ∧ shingleSet b = ∅ then _ else _) = _
  rw [if_neg (by tauto)]
  show (if shingleSet a = ∅ ∨ shingleSet b = ∅ then _ else _) = _
  rw [if_neg (by tauto)]
  show (if 0 < ((shingleSet a ∩ shingleSet b).card : ℚ) * 100
        / (((shingleSet a).card : ℚ) + ((shingleSet b).card : ℚ)
          - ((shingleSet a ∩ shingleSet b).card : ℚ))
      ∧ ((shingleSet a ∩ shingleSet b).card : ℚ) * 100
        / (((shingleSet a).card : ℚ) + ((shingleSet b).card : ℚ)
          - ((shingleSet a ∩ shingleSet b).card : ℚ)) < 20
      then _ else _) = _
  rw [card_union_eq a b, rawJaccard]

/-- C4: for non-identical texts, the shingle score is 100 when both
shingle sets are empty, 0 when exactly one is empty, and otherwise is the
raw Jaccard value `|A ∩ B| / |A ∪ B| * 100` boosted as follows: 0 stays
0, a value in `(0, 20)` becomes `20 + 0.8 * raw`, and a value at least 20
is returned unchanged. -/
theorem c4_boost (a b : Document) (hne : a.text ≠ b.text) :
    (shingleSet a = ∅ ∧ shingleSet b = ∅ → jcScore a b = 100) ∧
    ((shingleSet a = ∅ ∧ shingleSet b ≠ ∅) ∨ (shingleSet a ≠ ∅ ∧ shingleSet b = ∅) →
      jcScore a b = 0) ∧
    (shingleSet a ≠ ∅ → shingleSet b ≠ ∅ →
      ((rawJaccard a b = 0 → jcScore a b = 0) ∧
       (0 < rawJaccard a b → rawJaccard a b < 20 →
         jcScore a b = 20 + 0.8 * rawJaccard a b) ∧
       (20 ≤ rawJaccard a b → jcScore a b = rawJaccard a b))) := by
  refine ⟨?_, ?_, ?_⟩
  · rintro ⟨hA, hB⟩
    rw [jcScore, if_neg hne]
    show (if shingleSet a = ∅ ∧ shingleSet b = ∅ then _ else _) = _
    rw [if_pos ⟨hA, hB⟩]
  · intro hone
    rw [jcScore, if_neg hne]
    show (if shingleSet a = ∅ ∧ shingleSet b = ∅ then _ else _) = _
    rw [if_neg (by tauto)]
    show (if shingleSet a = ∅ ∨ shingleSet b = ∅ then _ else _) = _
    rw [if_pos (by tauto)]
  · intro hA hB
    have hmain := jcScore_main_eq a b hne hA hB
    refine ⟨?_, ?_, ?_⟩
    · intro h0
      rw [hmain, h0]
      norm_num
    · intro hpos hlt
      rw [hmain, if_pos ⟨hpos, hlt⟩]
      ring
    · intro hge
      rw [hmain, if_neg (fun hc => by linarith [hc.2])]

/-- Witness for C4 on the documents `abcd` and `bcde` (raw Jaccard
100/3 ≥ 20, returned unchanged). -/
theorem c4_boost_witness :
    (mkDocument ['a','b','c','d']).text ≠ (mkDocument ['b','c','d','e']).text ∧
    shingleSet (mkDocument ['a','b','c','d']) ≠ ∅ ∧
    shingleSet (mkDocument ['b','c','d','e']) ≠ ∅ ∧
    20 ≤ rawJaccard (mkDocument ['a','b','c','d']) (mkDocument ['b','c','d','e']) ∧
    jcScore (mkDocument ['a','b','c','d']) (mkDocument ['b','c','d','e'])
      = rawJaccard (mkDocument ['a','b','c','d']) (mkDocument ['b','c','d','e']) := by
  have h1 : ((shingleSet (mkDocument ['a','b','c','d'])
      ∩ shingleSet (mkDocument ['b','c','d','e'])).card) = 1 := by decide
  have h2 : ((shingleSet (mkDocument ['a','b','c','d'])
      ∪ shingleSet (mkDocument ['b','c','d','e'])).card) = 3 := by decide
  have h20 : 20 ≤ rawJaccard (mkDocument ['a','b','c','d']) (mkDocument ['b','c','d','e']) := by
    rw [rawJaccard, h1, h2]
    norm_num
  exact ⟨by decide, by decide, by decide, h20,
    ((c4_boost (mkDocument ['a','b','c','d']) (mkDocument ['b','c','d','e'])
      (by decide)).2.2 (by decide) (by decide)).2.2 h20⟩

/-- C10: the shingle score never lies strictly between 0 and 20 — it is
either exactly 0 or in `[20, 100]`, because the low-similarity boost
rescales any raw Jaccard value in `(0, 20)` to at least 20 while 0 and
values in `[20, 100]` pass through. -/
theorem c10_shingle_range (a b : Document) :
    jcScore a b = 0 ∨ (20 ≤ jcScore a b ∧ jcScore a b ≤ 100) := by
  by_cases hid : a.text = b.text
  · right
    rw [jcScore, if_pos hid]
    norm_num
  · by_cases hAB : shingleSet a = ∅ ∧ shingleSet b = ∅
    · right
      have hval : jcScore a b = 100 := by
        rw [jcScore, if_neg hid]
        show (if shingleSet a = ∅ ∧ shingleSet b = ∅ then _ else _) = _
        rw [if_pos hAB]
      rw [hval]
      norm_num
    · by_cases hone : shingleSet a = ∅ ∨ shingleSet b = ∅
      · left
        rw [jcScore, if_neg hid]
        show (if shingleSet a = ∅ ∧ shingleSet b = ∅ then _ else _) = _
        rw [if_neg hAB]
        show (if shingleSet a = ∅ ∨ shingleSet b = ∅ then _ else _) = _
        rw [if_pos hone]
      · push_neg at hone
        have hmain := jcScore_main_eq a b hid hone.1 hone.2
        have hUpos : (0 : ℚ) < ((shingleSet a ∪ shingleSet b).card : ℚ) := by
          have hA' : (shingleSet a).Nonempty := Finset.nonempty_iff_ne_empty.mpr hone.1
          have hUne : (shingleSet a ∪ shingleSet b).Nonempty :=
            hA'.mono Finset.subset_union_left
          exact_mod_cast Finset.card_pos.mpr hUne
        have hIle : ((shingleSet a ∩ shingleSet b).card : ℚ)
            ≤ ((shingleSet a ∪ shingleSet b).card : ℚ) := by
          exact_mod_cast Finset.card_le_card
            (le_trans Finset.inter_subset_left Finset.subset_union_left)
        have hInn : (0 : ℚ) ≤ ((shingleSet a ∩ shingleSet b).card : ℚ) := by positivity
        have hr0 : (0 : ℚ) ≤ rawJaccard a b := by
          rw [rawJaccard]
          positivity
        have hr100 : rawJaccard a b ≤ 100 := by
          rw [rawJaccard, div_le_iff₀ hUpos]
          nlinarith
        rcases eq_or_lt_of_le hr0 with hz | hpos
        · left
          rw [hmain, ← hz]
          norm_num
        · right
          by_cases hlt : rawJaccard a b < 20
          · rw [hmain, if_pos ⟨hpos, hlt⟩]
            constructor <;> nlinarith
          · rw [hmain, if_neg (fun hc => hlt hc.2)]
            constructor
            · linarith [not_lt.mp hlt]
            · exact hr100

end Plag
